import Mathlib

/-!
Verification of the normalization / feature-extraction engine of the
job-market-insights repository.

The Python sources are shallowly embedded over `List Char` / `String`:

* `src/features/extract_features.py` — skill-alias compiler and regex
  matcher, `normalize_text`, `classify_role_family`, `infer_seniority`,
  `extract_years_experience`, `extract_skills`, and the feature assembly
  in `main`.
* `src/processing/clean_transform.py` — `US_STATES`, `clean_text`,
  `parse_city_state`, and the query-state fallback in `main`.

Character classes follow the ASCII reading of Python's `\w` and `\s`
(the repository's configuration and keyword tables are all ASCII), and
`str.lower` is modelled by `Char.toLower`, its ASCII restriction.
-/

namespace JobMarket

/-- Python regex `\w` (ASCII): letter, digit or underscore. -/
def isWordChar (c : Char) : Bool := c.isAlpha || c.isDigit || c == '_'

/-- Python regex `\s` (ASCII): space, tab, newline, carriage return,
vertical tab or form feed. -/
def isWs (c : Char) : Bool :=
  c == ' ' || c == '\t' || c == '\n' || c == '\r' || c == '\x0b' || c == '\x0c'

/-- Characters replaced by a space in the first substitution of
`normalize_text` (`re.sub(r"[/,_\-|]", " ", s)`). -/
def punct1 (c : Char) : Bool :=
  c == '/' || c == ',' || c == '_' || c == '-' || c == '|'

/-- Characters kept by the second substitution of `normalize_text`
(`re.sub(r"[^\w\s\+]", " ", s)` keeps word characters, whitespace and
`+`). -/
def keep3 (c : Char) : Bool := isWordChar c || isWs c || c == '+'

/-- Replace every maximal run of whitespace by a single space: the
effect of `re.sub(r"\s+", " ", s)`. -/
def collapse : List Char → List Char
  | [] => []
  | [c] => if isWs c then [' '] else [c]
  | c1 :: c2 :: rest =>
    if isWs c1 && isWs c2 then collapse (c2 :: rest)
    else (if isWs c1 then ' ' else c1) :: collapse (c2 :: rest)

/-- Remove trailing whitespace. -/
def dropTrail (l : List Char) : List Char := (l.reverse.dropWhile isWs).reverse

/-- Python `str.strip()`: remove leading and trailing whitespace. -/
def stripL (l : List Char) : List Char := dropTrail (l.dropWhile isWs)

/-- Body of `normalize_text` (extract_features.py lines 49-56): lower
case, replace `[/,_\-|]` by a space, replace every character other than
word characters, whitespace and `+` by a space, collapse whitespace and
strip. -/
def normalizeList (l : List Char) : List Char :=
  stripL (collapse
    (((l.map Char.toLower).map fun c => if punct1 c then ' ' else c).map
      fun c => if keep3 c then c else ' '))

/-- `normalize_text` itself; the `Option` input models that the Python
function accepts `None` (`if not s: return ""` is true for `None` and
for the empty string). -/
def normalize_text : Option String → String
  | none => ""
  | some s => if s = "" then "" else String.mk (normalizeList s.data)

/-! ### Generic list lemmas -/

theorem map_eq_self_of {α : Type} {f : α → α} {l : List α}
    (h : ∀ c ∈ l, f c = c) : l.map f = l := by
  induction l with
  | nil => rfl
  | cons a l ih =>
    simp only [List.map_cons, List.cons.injEq]
    exact ⟨h a (List.mem_cons_self a l), ih fun c hc => h c (List.mem_cons_of_mem a hc)⟩

theorem getLast?_of_suffix {α : Type} {l w : List α} (h : l <:+ w) (hne : l ≠ []) :
    l.getLast? = w.getLast? := by
  obtain ⟨t, rfl⟩ := h
  exact (List.getLast?_append_of_ne_nil t hne).symm

theorem head?_dropWhile_not {α : Type} (p : α → Bool) (l : List α) :
    ∀ c ∈ (l.dropWhile p).head?, p c = false := by
  induction l with
  | nil => simp
  | cons a l ih =>
    by_cases h : p a
    · simpa [List.dropWhile_cons, h] using ih
    · simp [List.dropWhile_cons, h]

/-! ### `Char.toLower` is idempotent (ASCII model of `str.lower`) -/

theorem toLower_eq (c : Char) :
    c.toLower = if c.toNat ≥ 65 ∧ c.toNat ≤ 90 then Char.ofNat (c.toNat + 32) else c := rfl

theorem toLower_toLower (c : Char) : c.toLower.toLower = c.toLower := by
  rw [toLower_eq c]
  split
  · rename_i h
    obtain ⟨h1, h2⟩ := h
    generalize c.toNat = n at h1 h2
    interval_cases n <;> decide
  · rename_i h
    rw [toLower_eq c, if_neg h]

/-! ### Properties of `collapse` and `stripL` -/

/-- No two adjacent whitespace characters. -/
def RWW (a b : Char) : Prop := ¬(isWs a = true ∧ isWs b = true)

theorem mem_collapse {c : Char} {l : List Char} (h : c ∈ collapse l) :
    (c ∈ l ∧ isWs c = false) ∨ c = ' ' := by
  induction l using collapse.induct with
  | case1 => simp [collapse] at h
  | case2 d hw =>
    rw [collapse, if_pos hw] at h
    right
    simpa using h
  | case3 d hw =>
    rw [collapse, if_neg hw] at h
    left
    simp only [List.mem_singleton] at h
    subst h
    exact ⟨List.mem_singleton_self c, by simpa using hw⟩
  | case4 c1 c2 rest hww ih =>
    rw [collapse, if_pos hww] at h
    rcases ih h with ⟨hm, hw⟩ | he
    · exact .inl ⟨List.mem_cons_of_mem c1 hm, hw⟩
    · exact .inr he
  | case5 c1 c2 rest hww ih =>
    rw [collapse, if_neg hww] at h
    rcases List.mem_cons.1 h with he | ht
    · by_cases hw : isWs c1
      · rw [if_pos hw] at he
        exact .inr he
      · rw [if_neg hw] at he
        subst he
        exact .inl ⟨List.mem_cons_self _ _, by simpa using hw⟩
    · rcases ih ht with ⟨hm, hw⟩ | he
      · exact .inl ⟨List.mem_cons_of_mem c1 hm, hw⟩
      · exact .inr he

theorem head?_collapse {c : Char} (r : List Char) (h : isWs c = false) :
    (collapse (c :: r)).head? = some c := by
  cases r with
  | nil =>
    rw [collapse, if_neg (by simp [h])]
    rfl
  | cons c2 rest =>
    rw [collapse, if_neg (by simp [h]), if_neg (by simp [h])]
    rfl

theorem chain'_collapse (l : List Char) : (collapse l).Chain' RWW := by
  induction l using collapse.induct with
  | case1 => simp [collapse]
  | case2 d hw => rw [collapse, if_pos hw]; simp
  | case3 d hw => rw [collapse, if_neg hw]; simp
  | case4 c1 c2 rest hww ih => rw [collapse, if_pos hww]; exact ih
  | case5 c1 c2 rest hww ih =>
    rw [collapse, if_neg hww]
    rw [List.chain'_cons']
    refine ⟨?_, ih⟩
    intro y hy
    by_cases h1 : isWs c1
    · have h2 : isWs c2 = false := by
        rcases Bool.eq_false_or_eq_true (isWs c2) with h | h
        · exact absurd (by simp [h1, h]) hww
        · exact h
      rw [head?_collapse rest h2] at hy
      simp only [Option.mem_def, Option.some.injEq] at hy
      subst hy
      exact fun hc => by simp [h2] at hc
    · rw [if_neg h1]
      exact fun hc => by simp [h1] at hc

theorem collapse_fix {l : List Char} (hsp : ∀ c ∈ l, isWs c = true → c = ' ')
    (hch : l.Chain' RWW) : collapse l = l := by
  induction l using collapse.induct with
  | case1 => rfl
  | case2 d hw => rw [collapse, if_pos hw, hsp d (List.mem_singleton_self d) hw]
  | case3 d hw => rw [collapse, if_neg hw]
  | case4 c1 c2 rest hww ih =>
    exfalso
    rw [List.chain'_cons] at hch
    simp only [Bool.and_eq_true] at hww
    exact hch.1 ⟨hww.1, hww.2⟩
  | case5 c1 c2 rest hww ih =>
    rw [collapse, if_neg hww]
    rw [List.chain'_cons] at hch
    have htl : collapse (c2 :: rest) = c2 :: rest :=
      ih (fun c hc => hsp c (List.mem_cons_of_mem c1 hc)) hch.2
    rw [htl]
    by_cases hw : isWs c1
    · rw [if_pos hw, hsp c1 (List.mem_cons_self _ _) hw]
    · rw [if_neg hw]

theorem mem_stripL {c : Char} {l : List Char} (h : c ∈ stripL l) : c ∈ l := by
  have h1 : c ∈ (l.dropWhile isWs).reverse.dropWhile isWs := by
    simpa [stripL, dropTrail] using h
  have h2 : c ∈ (l.dropWhile isWs).reverse :=
    ((List.dropWhile_suffix isWs).sublist).mem h1
  have h3 : c ∈ l.dropWhile isWs := by simpa using h2
  exact ((List.dropWhile_suffix isWs).sublist).mem h3

theorem chain'_RWW_reverse {l : List Char} (h : l.Chain' RWW) : l.reverse.Chain' RWW := by
  rw [List.chain'_reverse]
  exact h.imp fun a b hab => fun hc => hab ⟨hc.2, hc.1⟩

theorem stripL_fix {l : List Char} (hh : ∀ c ∈ l.head?, isWs c = false)
    (hl : ∀ c ∈ l.getLast?, isWs c = false) : stripL l = l := by
  have h1 : l.dropWhile isWs = l := by
    cases l with
    | nil => rfl
    | cons a t =>
      have := hh a rfl
      simp [List.dropWhile_cons, this]
  have h2 : l.reverse.dropWhile isWs = l.reverse := by
    cases hr : l.reverse with
    | nil => rfl
    | cons a t =>
      have ha : a ∈ l.getLast? := by
        rw [← List.head?_reverse, hr]
        rfl
      have := hl a ha
      simp [List.dropWhile_cons, this]
  rw [stripL, h1, dropTrail, h2, List.reverse_reverse]

/-! ### Idempotence of the normalizer -/

theorem normalizeList_good {c : Char} {l : List Char} (h : c ∈ normalizeList l) :
    Char.toLower c = c ∧ punct1 c = false ∧ keep3 c = true := by
  have hs : c = ' ' → Char.toLower c = c ∧ punct1 c = false ∧ keep3 c = true := by
    rintro rfl
    refine ⟨rfl, by decide, by decide⟩
  have hD := mem_stripL h
  rcases mem_collapse hD with ⟨hC, hnw⟩ | he
  · rcases List.mem_map.1 hC with ⟨b, hB, hbc⟩
    by_cases hk : keep3 b
    · rw [if_pos hk] at hbc
      subst hbc
      rcases List.mem_map.1 hB with ⟨a, hA, hab⟩
      by_cases hp : punct1 a
      · rw [if_pos hp] at hab
        exact hs hab.symm
      · rw [if_neg hp] at hab
        subst hab
        rcases List.mem_map.1 hA with ⟨a0, _, ha0⟩
        subst ha0
        exact ⟨toLower_toLower a0, by simpa using hp, hk⟩
    · rw [if_neg hk] at hbc
      exact hs hbc.symm
  · exact hs he

theorem normalizeList_space {c : Char} {l : List Char} (h : c ∈ normalizeList l)
    (hw : isWs c = true) : c = ' ' := by
  have hD := mem_stripL h
  rcases mem_collapse hD with ⟨_, hnw⟩ | he
  · rw [hw] at hnw
    exact absurd hnw (by simp)
  · exact he

theorem normalizeList_chain' (l : List Char) : (normalizeList l).Chain' RWW := by
  have hD := chain'_collapse
    (((l.map Char.toLower).map fun c => if punct1 c then ' ' else c).map
      fun c => if keep3 c then c else ' ')
  have h1 := hD.suffix (List.dropWhile_suffix isWs)
  have h2 := (chain'_RWW_reverse h1).suffix (List.dropWhile_suffix isWs)
  exact chain'_RWW_reverse h2

theorem normalizeList_head? (l : List Char) :
    ∀ c ∈ (normalizeList l).head?, isWs c = false := by
  intro c hc
  set D := (collapse
    (((l.map Char.toLower).map fun c => if punct1 c then ' ' else c).map
      fun c => if keep3 c then c else ' ')).dropWhile isWs with hDdef
  have hc' : c ∈ (D.reverse.dropWhile isWs).reverse.head? := hc
  rw [List.head?_reverse] at hc'
  have hne : D.reverse.dropWhile isWs ≠ [] := by
    intro hnil
    rw [hnil] at hc'
    simp at hc'
  rw [getLast?_of_suffix (List.dropWhile_suffix isWs) hne, List.getLast?_reverse] at hc'
  exact head?_dropWhile_not isWs _ c hc'

theorem normalizeList_getLast? (l : List Char) :
    ∀ c ∈ (normalizeList l).getLast?, isWs c = false := by
  intro c hc
  rw [normalizeList, stripL, dropTrail, List.getLast?_reverse] at hc
  exact head?_dropWhile_not isWs _ c hc

theorem normalizeList_idem (l : List Char) :
    normalizeList (normalizeList l) = normalizeList l := by
  set Y := normalizeList l with hY
  have h1 : Y.map Char.toLower = Y :=
    map_eq_self_of fun c hc => (normalizeList_good hc).1
  have h2 : (Y.map fun c => if punct1 c then ' ' else c) = Y :=
    map_eq_self_of fun c hc => if_neg (by simp [(normalizeList_good hc).2.1])
  have h3 : (Y.map fun c => if keep3 c then c else ' ') = Y :=
    map_eq_self_of fun c hc => if_pos (normalizeList_good hc).2.2
  have h4 : collapse Y = Y :=
    collapse_fix (fun c hc hw => normalizeList_space hc hw) (normalizeList_chain' l)
  have h5 : stripL Y = Y :=
    stripL_fix (normalizeList_head? l) (normalizeList_getLast? l)
  calc normalizeList Y
      = stripL (collapse (((Y.map Char.toLower).map fun c => if punct1 c then ' ' else c).map
          fun c => if keep3 c then c else ' ')) := rfl
    _ = Y := by rw [h1, h2, h3, h4, h5]

/-- C5: text normalization is idempotent — for every string x,
normalize(normalize(x)) equals normalize(x) — and null or empty input
yields the empty string without error. -/
theorem normalize_text_idempotent :
    normalize_text none = "" ∧ normalize_text (some "") = "" ∧
    ∀ x : Option String, normalize_text (some (normalize_text x)) = normalize_text x := by
  refine ⟨rfl, rfl, ?_⟩
  intro x
  match x with
  | none => rfl
  | some s =>
    by_cases hs : s = ""
    · subst hs
      rfl
    · simp only [normalize_text, if_neg hs]
      by_cases hY : normalizeList s.data = []
      · rw [hY]
        rfl
      · have hne : String.mk (normalizeList s.data) ≠ "" := by
          intro hcon
          exact hY (congrArg String.data hcon)
        rw [if_neg hne]
        exact congrArg String.mk (normalizeList_idem s.data)

/-! ### The compiled alias matcher

`compiled` (extract_features.py lines 35-46) turns every alias into
`re.escape(alias).replace(r"\ ", r"\s+")` and joins the alias patterns of
one canonical skill into `(?i)(?<!\w)(p1|p2|...)(?!\w)`.  A pattern is
modelled as the alias character list: a space stands for `\s+`, every
other character matches itself literally (case-insensitively, for the
`(?i)` flag). -/

/-- Case-insensitive character comparison: the effect of `(?i)` on a
literal (ASCII model). -/
def chEq (a c : Char) : Bool := a.toLower == c.toLower

/-- The `(?!\w)` look-ahead: the next character, if any, is not a word
character. -/
def headOk : List Char → Bool
  | [] => true
  | c :: _ => !isWordChar c

/-- The `(?<!\w)` look-behind over an explicit prefix: the last character
of the prefix, if any, is not a word character. -/
def lastOk (pre : List Char) : Bool :=
  match pre.getLast? with
  | none => true
  | some c => !isWordChar c

/-- One alias pattern matched at the start of `t` with backtracking, up
to and including the trailing `(?!\w)` look-ahead. -/
def matchPat : List Char → List Char → Bool
  | [], t => headOk t
  | _ :: _, [] => false
  | a :: as, c :: t =>
    if a = ' ' then isWs c && (matchPat as t || matchPat (a :: as) t)
    else chEq a c && matchPat as t
termination_by a t => a.length + t.length

/-- The alternation `(p1|p2|...)` followed by `(?!\w)`, tested at one
position.  `"|".join` of an empty list is the empty pattern, which
matches the empty string, so for an empty pattern list only the
look-arounds remain. -/
def altMatch (pats : List (List Char)) (t : List Char) : Bool :=
  match pats with
  | [] => headOk t
  | _ :: _ => pats.any fun p => matchPat p t

/-- `rx.search` scanning: try the alternation at every position;
`prevOk` says whether the character before the current position is not a
word character. -/
def searchAux (pats : List (List Char)) : Bool → List Char → Bool
  | prevOk, [] => prevOk && altMatch pats []
  | prevOk, c :: t => (prevOk && altMatch pats (c :: t)) || searchAux pats (!isWordChar c) t

/-- `rx.search(t)` for the compiled regex of one canonical skill. -/
def rxSearch (pats : List (List Char)) (t : List Char) : Bool := searchAux pats true t

theorem matchPat_nil (t : List Char) : matchPat [] t = headOk t := by
  simp [matchPat]

theorem matchPat_cons_nil (a : Char) (as : List Char) : matchPat (a :: as) [] = false := by
  simp [matchPat]

theorem matchPat_sp (as : List Char) (c : Char) (t : List Char) :
    matchPat (' ' :: as) (c :: t) = (isWs c && (matchPat as t || matchPat (' ' :: as) t)) := by
  simp [matchPat]

theorem matchPat_lit {a : Char} (as : List Char) (c : Char) (t : List Char) (h : a ≠ ' ') :
    matchPat (a :: as) (c :: t) = (chEq a c && matchPat as t) := by
  simp [matchPat, h]

/-- Declarative occurrence of one alias: literal characters match
case-insensitively and each internal space of the alias matches a
non-empty run of whitespace. -/
inductive AliasOcc : List Char → List Char → Prop where
  | nil : AliasOcc [] []
  | lit {a c : Char} {as ms : List Char} :
      a ≠ ' ' → chEq a c = true → AliasOcc as ms → AliasOcc (a :: as) (c :: ms)
  | ws {as ms : List Char} (w : List Char) :
      w ≠ [] → (∀ c ∈ w, isWs c = true) → AliasOcc as ms → AliasOcc (' ' :: as) (w ++ ms)

/-- An alias occurs somewhere in the text, neither preceded nor followed
by a word character. -/
def OccursWB (a t : List Char) : Prop :=
  ∃ pre mid suf, t = pre ++ mid ++ suf ∧ AliasOcc a mid ∧
    lastOk pre = true ∧ headOk suf = true

theorem aliasOcc_cons_ne_nil {a : Char} {as mid : List Char}
    (h : AliasOcc (a :: as) mid) : mid ≠ [] := by
  intro hnil
  cases h with
  | lit => simp at hnil
  | ws w hwne hall h' => exact hwne (List.append_eq_nil.mp hnil).1

theorem matchPat_iff (a t : List Char) :
    matchPat a t = true ↔
      ∃ mid suf, t = mid ++ suf ∧ AliasOcc a mid ∧ headOk suf = true := by
  induction a, t using matchPat.induct with
  | case1 t =>
    rw [matchPat_nil]
    constructor
    · intro h
      exact ⟨[], t, rfl, .nil, h⟩
    · rintro ⟨mid, suf, rfl, hocc, hok⟩
      cases hocc
      simpa using hok
  | case2 a as =>
    rw [matchPat_cons_nil]
    constructor
    · intro h
      simp at h
    · rintro ⟨mid, suf, heq, hocc, hok⟩
      have hmid : mid = [] := by
        cases mid with
        | nil => rfl
        | cons x xs => simp at heq
      exact absurd hmid (aliasOcc_cons_ne_nil hocc)
  | case3 as c t iht ihsp =>
    rw [matchPat_sp]
    constructor
    · intro h
      simp only [Bool.and_eq_true, Bool.or_eq_true] at h
      obtain ⟨hws, hor⟩ := h
      rcases hor with h1 | h2
      · obtain ⟨mid, suf, rfl, hocc, hok⟩ := iht.mp h1
        exact ⟨[c] ++ mid, suf, rfl, .ws [c] (by simp) (by simpa using hws) hocc, hok⟩
      · obtain ⟨mid, suf, heq, hocc, hok⟩ := ihsp.mp h2
        cases hocc with
        | lit hne _ _ => exact absurd rfl hne
        | ws w hwne hall hocc' =>
          rename_i ms
          refine ⟨(c :: w) ++ ms, suf, ?_, ?_, hok⟩
          · simpa using congrArg (c :: ·) heq
          · exact .ws (c :: w) (by simp)
              (by
                intro x hx
                rcases List.mem_cons.1 hx with rfl | hx'
                · exact hws
                · exact hall x hx') hocc'
    · rintro ⟨mid, suf, heq, hocc, hok⟩
      cases hocc with
      | lit hne _ _ => exact absurd rfl hne
      | ws w hwne hall hocc' =>
        rename_i ms
        cases w with
        | nil => exact absurd rfl hwne
        | cons d w' =>
          simp only [List.cons_append, List.cons.injEq] at heq
          obtain ⟨rfl, ht⟩ := heq
          have hc : isWs c = true := hall c (List.mem_cons_self _ _)
          simp only [hc, Bool.true_and, Bool.or_eq_true]
          cases w' with
          | nil =>
            left
            exact iht.mpr ⟨ms, suf, by simpa using ht, hocc', hok⟩
          | cons e w'' =>
            right
            refine ihsp.mpr ⟨(e :: w'') ++ ms, suf, by simpa using ht, ?_, hok⟩
            exact .ws (e :: w'') (by simp)
              (fun x hx => hall x (List.mem_cons_of_mem _ hx)) hocc'
  | case4 a as c t hne ih =>
    rw [matchPat_lit as c t hne]
    constructor
    · intro h
      simp only [Bool.and_eq_true] at h
      obtain ⟨mid, suf, rfl, hocc, hok⟩ := ih.mp h.2
      exact ⟨c :: mid, suf, rfl, .lit hne h.1 hocc, hok⟩
    · rintro ⟨mid, suf, heq, hocc, hok⟩
      cases hocc with
      | ws w hwne hall hocc' => exact absurd rfl hne
      | lit hne' hch hocc' =>
        rename_i c' ms
        simp only [List.cons_append, List.cons.injEq] at heq
        obtain ⟨rfl, ht⟩ := heq
        simp only [hch, Bool.true_and]
        exact ih.mpr ⟨ms, suf, ht, hocc', hok⟩

/-- The look-behind state threaded by `searchAux`, as a predicate on the
consumed prefix. -/
def preOk (prevOk : Bool) (pre : List Char) : Bool :=
  match pre.getLast? with
  | none => prevOk
  | some c => !isWordChar c

theorem preOk_cons (prevOk : Bool) (c : Char) (pre : List Char) :
    preOk prevOk (c :: pre) = preOk (!isWordChar c) pre := by
  cases pre with
  | nil => rfl
  | cons d r =>
    unfold preOk
    rw [List.getLast?_cons_cons]
    cases h : (d :: r).getLast? with
    | none =>
      exfalso
      rw [List.getLast?_eq_getLast _ (by simp)] at h
      simp at h
    | some x => rfl

theorem lastOk_eq_preOk (pre : List Char) : lastOk pre = preOk true pre := rfl

theorem searchAux_iff (pats : List (List Char)) (t : List Char) (prevOk : Bool) :
    searchAux pats prevOk t = true ↔
      ∃ pre suf, t = pre ++ suf ∧ preOk prevOk pre = true ∧ altMatch pats suf = true := by
  induction t generalizing prevOk with
  | nil =>
    simp only [searchAux, Bool.and_eq_true]
    constructor
    · rintro ⟨hp, ha⟩
      exact ⟨[], [], rfl, hp, ha⟩
    · rintro ⟨pre, suf, heq, hp, ha⟩
      have hpre : pre = [] := by
        cases pre with
        | nil => rfl
        | cons x xs => simp at heq
      subst hpre
      simp only [List.nil_append] at heq
      subst heq
      exact ⟨hp, ha⟩
  | cons c t ih =>
    simp only [searchAux, Bool.or_eq_true, Bool.and_eq_true]
    constructor
    · rintro (⟨hp, ha⟩ | hrec)
      · exact ⟨[], c :: t, rfl, hp, ha⟩
      · obtain ⟨pre, suf, rfl, hp, ha⟩ := (ih (!isWordChar c)).mp hrec
        exact ⟨c :: pre, suf, rfl, by rwa [preOk_cons], ha⟩
    · rintro ⟨pre, suf, heq, hp, ha⟩
      cases pre with
      | nil =>
        simp only [List.nil_append] at heq
        subst heq
        exact .inl ⟨hp, ha⟩
      | cons d pre' =>
        simp only [List.cons_append, List.cons.injEq] at heq
        obtain ⟨rfl, ht⟩ := heq
        right
        exact (ih (!isWordChar c)).mpr ⟨pre', suf, ht, by rwa [preOk_cons] at hp, ha⟩

/-- Soundness and completeness of the compiled per-skill regex on any
non-empty alias list: the regex fires exactly when some alias occurs on
word boundaries. -/
theorem rxSearch_iff (pats : List (List Char)) (t : List Char) (hne : pats ≠ []) :
    rxSearch pats t = true ↔ ∃ p ∈ pats, OccursWB p t := by
  rw [rxSearch, searchAux_iff]
  constructor
  · rintro ⟨pre, suf, rfl, hp, ha⟩
    have ha' : ∃ p ∈ pats, matchPat p suf = true := by
      cases pats with
      | nil => exact absurd rfl hne
      | cons q qs => simpa [altMatch] using ha
    obtain ⟨p, hmem, hm⟩ := ha'
    obtain ⟨mid, suf', rfl, hocc, hok⟩ := (matchPat_iff p suf).mp hm
    exact ⟨p, hmem, pre, mid, suf', by simp, hocc, by rwa [lastOk_eq_preOk], hok⟩
  · rintro ⟨p, hmem, pre, mid, suf, rfl, hocc, hpre, hok⟩
    refine ⟨pre, mid ++ suf, by simp, by rwa [lastOk_eq_preOk] at hpre, ?_⟩
    have hm : matchPat p (mid ++ suf) = true :=
      (matchPat_iff p (mid ++ suf)).mpr ⟨mid, suf, rfl, hocc, hok⟩
    cases pats with
    | nil => exact absurd rfl hne
    | cons q qs =>
      simp only [altMatch, List.any_eq_true]
      exact ⟨p, hmem, hm⟩

/-! ### Skill configuration loading and the compiled dictionary -/

/-- Shallow model of the YAML values that can appear in
`config/skills.yml`; alias lists hold strings, which is the only nesting
the repository's configuration uses. -/
inductive YVal where
  | yNull : YVal
  | yStr : String → YVal
  | yList : List String → YVal
  | yDict : List (String × YVal) → YVal

/-- Python truthiness of a value (`if not aliases: continue`). -/
def truthy : YVal → Bool
  | .yNull => false
  | .yStr s => s != ""
  | .yList l => !l.isEmpty
  | .yDict l => !l.isEmpty

/-- Python iteration over a value followed by `str(a)` on each element:
a list yields its elements, a string its characters as one-character
strings, a dict its keys.  Only truthy values are ever iterated by the
compiler. -/
def yElems : YVal → List String
  | .yNull => []
  | .yStr s => s.data.map fun c => String.mk [c]
  | .yList l => l
  | .yDict l => l.map Prod.fst

/-- `str(a).strip().lower()` (ASCII model of `lower`). -/
def trimLower (s : String) : String := String.mk ((stripL s.data).map Char.toLower)

/-- Alias pattern list of one canonical skill:
`[str(a).strip().lower() for a in aliases if str(a).strip()]`, each entry
then escaped with literal spaces turned into `\s+` (modelled by the
character list itself, `matchPat` interpreting a space as `\s+`). -/
def patternsOf (aliases : List String) : List (List Char) :=
  ((aliases.filter fun a => !(stripL a.data).isEmpty).map trimLower).map String.data

/-- The module-level `compiled` list (extract_features.py lines 35-46):
one `(canonical_norm, alias patterns)` pair per truthy alias value, in
dictionary order. -/
def compiledOf (m : List (String × YVal)) : List (String × List (List Char)) :=
  (m.filter fun e => truthy e.2).map fun e => (trimLower e.1, patternsOf (yElems e.2))

/-- The compiler applied to a plain string-to-string-list mapping. -/
def compile (d : List (String × List String)) : List (String × List (List Char)) :=
  compiledOf (d.map fun e => (e.1, YVal.yList e.2))

/-- The guard on `skills_map` (extract_features.py lines 30-32):
`not isinstance(skills_map, dict) or not skills_map` raises, anything
else is accepted unchanged. -/
def checkSkillsMap : YVal → Except String (List (String × YVal))
  | .yDict l =>
    if l.isEmpty then
      .error "config/skills.yml must be a dict of canonical_skill -> [aliases]"
    else .ok l
  | _ => .error "config/skills.yml must be a dict of canonical_skill -> [aliases]"

/-- `extract_skills` (extract_features.py lines 109-115): normalize the
blob and keep, in compiled order, every canonical skill whose regex
fires, together with the first ten entries. -/
def extract_skills (compiled : List (String × List (List Char))) (text_blob : String) :
    List String × List String :=
  let t := normalizeList text_blob.data
  let found := (compiled.filter fun e => rxSearch e.2 t).map Prod.fst
  (found, found.take 10)

/-- The skill-related fields assembled per record in `main`
(extract_features.py lines 164-167). -/
structure SkillFields where
  skills : List String
  skills_count : Nat
  top_skills : List String
  has_explicit_skills : Bool
deriving DecidableEq

/-- `skills_found, top_skills = extract_skills(blob)`,
`skills_count = int(len(skills_found))`,
`has_explicit = skills_count > 0`. -/
def skillFieldsOf (compiled : List (String × List (List Char))) (blob : String) : SkillFields :=
  let p := extract_skills compiled blob
  { skills := p.1
    skills_count := p.1.length
    top_skills := p.2
    has_explicit_skills := decide (p.1.length > 0) }

/-- C1: skill matching is whole-word/whole-phrase and whitespace
tolerant: a compiled alias alternation fires exactly when some alias
occurs neither preceded nor followed by a word character, with internal
alias spaces matching runs of whitespace; in particular "java" does not
match "javascript developer role", and "power bi" matches "Power BI" and
"power-bi" but not "powerbike". -/
theorem skill_match_word_boundary :
    (∀ (pats : List (List Char)) (t : List Char), pats ≠ [] →
      (rxSearch pats t = true ↔ ∃ p ∈ pats, OccursWB p t)) ∧
    rxSearch ["java".data] (normalizeList "javascript developer role".data) = false ∧
    rxSearch ["power bi".data] (normalizeList "Power BI".data) = true ∧
    rxSearch ["power bi".data] (normalizeList "power-bi".data) = true ∧
    rxSearch ["power bi".data] (normalizeList "powerbike".data) = false := by
  refine ⟨rxSearch_iff, ?_, ?_, ?_, ?_⟩
  · rw [show normalizeList "javascript developer role".data =
        "javascript developer role".data from by decide]
    simp [rxSearch, searchAux, altMatch, matchPat, headOk, chEq, isWordChar, isWs]
  · rw [show normalizeList "Power BI".data = "power bi".data from by decide]
    simp [rxSearch, searchAux, altMatch, matchPat, headOk, chEq, isWordChar, isWs]
  · rw [show normalizeList "power-bi".data = "power bi".data from by decide]
    simp [rxSearch, searchAux, altMatch, matchPat, headOk, chEq, isWordChar, isWs]
  · rw [show normalizeList "powerbike".data = "powerbike".data from by decide]
    simp [rxSearch, searchAux, altMatch, matchPat, headOk, chEq, isWordChar, isWs]

/-- Closed instance of the universal part of `skill_match_word_boundary`. -/
theorem skill_match_word_boundary_witness :
    rxSearch ["sql".data] "needs sql skills".data = true ↔
      ∃ p ∈ [("sql".data)], OccursWB p "needs sql skills".data :=
  skill_match_word_boundary.1 ["sql".data] "needs sql skills".data (by decide)

/-! ### Role-family and seniority classifiers -/

def startsWithL : List Char → List Char → Bool
  | [], _ => true
  | _ :: _, [] => false
  | a :: n, c :: h => a == c && startsWithL n h

/-- Python `needle in haystack` substring test. -/
def containsSub (n : List Char) : List Char → Bool
  | [] => startsWithL n []
  | c :: h => startsWithL n (c :: h) || containsSub n h

/-- `classify_role_family` (extract_features.py lines 59-69).  The
`re.search(r"\bml\b", t)` and `\bbi\b` checks coincide with `rxSearch`
on the single-alias pattern, because `\b` next to a word character is
exactly the corresponding look-around, and `t` is already lower-cased. -/
def classify_role_family (title : String) : String :=
  let t := title.data.map Char.toLower
  if containsSub "data engineer".data t || containsSub "etl".data t ||
      containsSub "pipeline".data t then "Data Engineering"
  else if containsSub "data scientist".data t || containsSub "machine learning".data t ||
      rxSearch ["ml".data] t then "Data Science"
  else if containsSub "business intelligence".data t || containsSub "power bi".data t ||
      containsSub "tableau".data t || rxSearch ["bi".data] t then "Business Intelligence"
  else if containsSub "analyst".data t || containsSub "analytics".data t then "Analytics"
  else "Other"

/-- `infer_seniority` (extract_features.py lines 72-82). -/
def infer_seniority (title : String) : String :=
  let t := title.data.map Char.toLower
  if ["intern", "co-op", "student"].any (fun x => containsSub x.data t) then "Intern"
  else if ["director", "head", "vp", "vice president", "manager"].any
      (fun x => containsSub x.data t) then "Management"
  else if ["principal", "staff", "lead", "senior", "sr.", "sr "].any
      (fun x => containsSub x.data t) then "Senior"
  else if ["junior", "jr.", "entry", "associate", "new grad"].any
      (fun x => containsSub x.data t) then "Entry"
  else "Mid"

/-- `infer_remote` (extract_features.py lines 85-88), evaluated on the
full blob. -/
def infer_remote (text_blob : String) : Bool :=
  let t := text_blob.data.map Char.toLower
  ["remote", "work from home", "wfh", "telecommute", "fully remote", "100% remote",
    "anywhere"].any fun s => containsSub s.data t

/-- `baseline_skills_for_role` (extract_features.py lines 118-132). -/
def baseline_skills_for_role (role_family : String) : List String :=
  let role := String.mk (stripL role_family.data)
  if role = "Analytics" then ["sql", "excel"]
  else if role = "Business Intelligence" then ["sql", "power bi", "tableau"]
  else if role = "Data Engineering" then ["sql", "python", "etl", "cloud"]
  else if role = "Data Science" then ["python", "statistics", "machine learning"]
  else if role = "Other" then []
  else []

/-- A keyword rule chain evaluated top-to-bottom, first match wins. -/
def firstMatch (rules : List ((List Char → Bool) × String)) (deflt : String)
    (t : List Char) : String :=
  match rules with
  | [] => deflt
  | (p, r) :: rs => if p t then r else firstMatch rs deflt t

/-- The four role-family rules, in source order. -/
def roleRules : List ((List Char → Bool) × String) :=
  [ (fun t => containsSub "data engineer".data t || containsSub "etl".data t ||
      containsSub "pipeline".data t, "Data Engineering"),
    (fun t => containsSub "data scientist".data t || containsSub "machine learning".data t ||
      rxSearch ["ml".data] t, "Data Science"),
    (fun t => containsSub "business intelligence".data t || containsSub "power bi".data t ||
      containsSub "tableau".data t || rxSearch ["bi".data] t, "Business Intelligence"),
    (fun t => containsSub "analyst".data t || containsSub "analytics".data t, "Analytics") ]

/-- The four seniority rules, in source order. -/
def seniorityRules : List ((List Char → Bool) × String) :=
  [ (fun t => ["intern", "co-op", "student"].any fun x => containsSub x.data t, "Intern"),
    (fun t => ["director", "head", "vp", "vice president", "manager"].any
      (fun x => containsSub x.data t), "Management"),
    (fun t => ["principal", "staff", "lead", "senior", "sr.", "sr "].any
      (fun x => containsSub x.data t), "Senior"),
    (fun t => ["junior", "jr.", "entry", "associate", "new grad"].any
      (fun x => containsSub x.data t), "Entry") ]

theorem firstMatch_default (rules : List ((List Char → Bool) × String)) (deflt : String)
    (t : List Char) (h : ∀ r ∈ rules, r.1 t = false) : firstMatch rules deflt t = deflt := by
  induction rules with
  | nil => rfl
  | cons r rs ih =>
    obtain ⟨p, s⟩ := r
    have hp : p t = false := h (p, s) (List.mem_cons_self _ _)
    rw [firstMatch, if_neg (by simp [hp])]
    exact ih fun r hr => h r (List.mem_cons_of_mem _ hr)

/-- C4: both classifiers are the first-match-wins evaluation of their
rule tables in source order on the lower-cased title; "Senior Data
Engineer Intern" classifies as Data Engineering / Intern, and a title
matching no rule yields Other / Mid. -/
theorem classifier_rule_order :
    (∀ title : String,
      classify_role_family title = firstMatch roleRules "Other" (title.data.map Char.toLower)) ∧
    (∀ title : String,
      infer_seniority title = firstMatch seniorityRules "Mid" (title.data.map Char.toLower)) ∧
    classify_role_family "Senior Data Engineer Intern" = "Data Engineering" ∧
    infer_seniority "Senior Data Engineer Intern" = "Intern" ∧
    (∀ title : String, (∀ r ∈ roleRules, r.1 (title.data.map Char.toLower) = false) →
      classify_role_family title = "Other") ∧
    (∀ title : String, (∀ r ∈ seniorityRules, r.1 (title.data.map Char.toLower) = false) →
      infer_seniority title = "Mid") := by
  have hrole : ∀ title : String,
      classify_role_family title = firstMatch roleRules "Other" (title.data.map Char.toLower) :=
    fun _ => rfl
  have hsen : ∀ title : String,
      infer_seniority title = firstMatch seniorityRules "Mid" (title.data.map Char.toLower) :=
    fun _ => rfl
  refine ⟨hrole, hsen, ?_, by decide, ?_, ?_⟩
  · decide
  · intro title h
    rw [hrole title]
    exact firstMatch_default _ _ _ h
  · intro title h
    rw [hsen title]
    exact firstMatch_default _ _ _ h

/-- Closed instance of the default clauses of `classifier_rule_order` at
the keyword-free title "Chef". -/
theorem classifier_rule_order_witness :
    classify_role_family "Chef" = "Other" ∧ infer_seniority "Chef" = "Mid" :=
  ⟨classifier_rule_order.2.2.2.2.1 "Chef"
      (by
        simp only [roleRules, List.mem_cons, List.not_mem_nil, or_false]
        rintro r (rfl | rfl | rfl | rfl) <;>
          simp [containsSub, startsWithL, rxSearch, searchAux, altMatch, matchPat,
            headOk, chEq, isWordChar, isWs]),
    classifier_rule_order.2.2.2.2.2 "Chef" (by decide)⟩

/-! ### clean_transform.py: state table, text cleaner, location parser -/

/-- `US_STATES` (clean_transform.py lines 24-32). -/
def US_STATES : List (String × String) :=
  [("AL", "Alabama"), ("AK", "Alaska"), ("AZ", "Arizona"), ("AR", "Arkansas"),
   ("CA", "California"), ("CO", "Colorado"), ("CT", "Connecticut"), ("DE", "Delaware"),
   ("FL", "Florida"), ("GA", "Georgia"), ("HI", "Hawaii"), ("ID", "Idaho"),
   ("IL", "Illinois"), ("IN", "Indiana"), ("IA", "Iowa"), ("KS", "Kansas"),
   ("KY", "Kentucky"), ("LA", "Louisiana"), ("ME", "Maine"), ("MD", "Maryland"),
   ("MA", "Massachusetts"), ("MI", "Michigan"), ("MN", "Minnesota"), ("MS", "Mississippi"),
   ("MO", "Missouri"), ("MT", "Montana"), ("NE", "Nebraska"), ("NV", "Nevada"),
   ("NH", "New Hampshire"), ("NJ", "New Jersey"), ("NM", "New Mexico"), ("NY", "New York"),
   ("NC", "North Carolina"), ("ND", "North Dakota"), ("OH", "Ohio"), ("OK", "Oklahoma"),
   ("OR", "Oregon"), ("PA", "Pennsylvania"), ("RI", "Rhode Island"), ("SC", "South Carolina"),
   ("SD", "South Dakota"), ("TN", "Tennessee"), ("TX", "Texas"), ("UT", "Utah"),
   ("VT", "Vermont"), ("VA", "Virginia"), ("WA", "Washington"), ("WV", "West Virginia"),
   ("WI", "Wisconsin"), ("WY", "Wyoming")]

/-- `STATE_NAMES = set(US_STATES.values())`. -/
def STATE_NAMES : List String := US_STATES.map Prod.snd

/-- `STATE_ABBRS = set(US_STATES.keys())`. -/
def STATE_ABBRS : List String := US_STATES.map Prod.fst

/-- Tag stripping `re.sub(r"<[^>]+>", " ", text)`: each `<` followed by
at least one non-`>` character up to the next `>` is replaced by one
space; a `<` without such a closing `>` is kept literally. -/
def stripTags : List Char → List Char
  | [] => []
  | c :: rest =>
    if c = '<' then
      let pre := rest.takeWhile fun d => d ≠ '>'
      if pre.length < rest.length ∧ pre ≠ [] then
        ' ' :: stripTags (rest.drop (pre.length + 1))
      else c :: stripTags rest
    else c :: stripTags rest
termination_by l => l.length
decreasing_by
  · rename_i h
    simp only [List.length_cons, List.length_drop]
    omega
  · simp
  · simp

/-- `clean_text` (clean_transform.py lines 39-45): falsy input (None or
the empty string) yields None; otherwise remove HTML tags and normalize
whitespace. -/
def clean_text (html_text : Option String) : Option String :=
  match html_text with
  | none => none
  | some s =>
    if s = "" then none
    else some (String.mk (stripL (collapse (stripTags s.data))))

/-- Python `s.split(",")`: split at every comma, keeping empty pieces. -/
def splitComma : List Char → List (List Char)
  | [] => [[]]
  | c :: r =>
    if c = ',' then [] :: splitComma r
    else
      match splitComma r with
      | p :: ps => (c :: p) :: ps
      | [] => [[c]]

/-- Python `s.split()` with no separator: the maximal whitespace-free
chunks, empties dropped. -/
def splitWs (l : List Char) : List (List Char) :=
  (l.splitOnP isWs).filter fun w => w ≠ []

/-- Python `" ".join(ws)`. -/
def joinSpace (ws : List (List Char)) : List Char := (List.intersperse [' '] ws).flatten

/-- `token = maybe_state.split()[0].strip()` (clean_transform.py line
73). -/
def firstTokenStr (ms : String) : String := String.mk (stripL ((splitWs ms.data).headD []))

/-- State resolution from the second comma-separated part
(clean_transform.py lines 68-77): the part as an abbreviation, the part
as a full name, else its first whitespace token checked both ways.
Membership in `STATE_ABBRS` / `STATE_NAMES` and the dictionary access
`US_STATES[...]` are modelled by `List.contains` and `List.lookup` on
the association list. -/
def resolveSecondPart (ms : String) : Option String :=
  if STATE_ABBRS.contains ms then US_STATES.lookup ms
  else if STATE_NAMES.contains ms then some ms
  else if STATE_ABBRS.contains (firstTokenStr ms) then US_STATES.lookup (firstTokenStr ms)
  else if STATE_NAMES.contains (firstTokenStr ms) then some (firstTokenStr ms)
  else none

/-- The single-part branch of `parse_city_state` (clean_transform.py
lines 78-89): a recognized trailing two-letter abbreviation resolves the
state with the city being everything before it (`or None` collapsing an
empty join to a null city); otherwise the whole string is the city. -/
def singlePartResult (loc : List Char) : Option String × Option String :=
  match (splitWs loc).getLast? with
  | none => (none, none)
  | some lastTok =>
    if STATE_ABBRS.contains (String.mk (stripL lastTok)) then
      (if stripL (joinSpace (splitWs loc).dropLast) = [] then none
        else some (String.mk (stripL (joinSpace (splitWs loc).dropLast))),
        US_STATES.lookup (String.mk (stripL lastTok)))
    else (some (String.mk loc), none)

/-- `parts = [p.strip() for p in loc.split(",") if p.strip()]`
(clean_transform.py line 59). -/
def partsOf (s : String) : List (List Char) :=
  ((splitComma (stripL s.data)).map stripL).filter fun p => p ≠ []

/-- `parse_city_state` (clean_transform.py lines 47-90).  The input is
optional because the Python function accepts None (`if not
location_raw`); the branch helpers above carry the body of the
function. -/
def parse_city_state (location_raw : Option String) : Option String × Option String :=
  match location_raw with
  | none => (none, none)
  | some s =>
    if s = "" then (none, none)
    else if (partsOf s).length ≥ 2 then
      (some (String.mk ((partsOf s).headD [])),
        resolveSecondPart (String.mk ((partsOf s).getD 1 [])))
    else singlePartResult (stripL s.data)

/-- The query-state fallback in `main` (clean_transform.py lines
120-125): `if not state and r.get("query_state"): state = query_state`. -/
def applyFallback (state : Option String) (query_state : Option String) : Option String :=
  let stateFalsy := match state with | none => true | some s => s == ""
  match query_state with
  | some q => if stateFalsy && q != "" then some q else state
  | none => state

/-! ### Years-of-experience extraction

`extract_years_experience` (extract_features.py lines 91-106) applies
four regex patterns with `re.finditer` on the normalized blob.  Each
pattern is embedded as a step function trying a match anchored at one
position, returning the captured digit group and the remainder after the
whole match.  `\s*`/`\s+` are always followed by a non-whitespace
literal or a digit in these patterns, so maximal munch of whitespace is
equivalent to the backtracking engine; the greedy `(\d{1,2})` and the
`(?:years|yrs)` alternation are modelled with explicit backtracking. -/

/-- Maximal whitespace munch. -/
def dropWs (t : List Char) : List Char := t.dropWhile isWs

/-- Literal word at the start of `t`. -/
def litPref (w : List Char) (t : List Char) : Option (List Char) :=
  match w, t with
  | [], t => some t
  | _ :: _, [] => none
  | a :: w', c :: t' => if a = c then litPref w' t' else none

/-- `yrs\b`. -/
def yrsB (t : List Char) : Option (List Char) :=
  match litPref "yrs".data t with
  | some r => if headOk r then some r else none
  | none => none

/-- `(?:years|yrs)\b`: "years" is tried first; on failure (also of its
`\b`) the engine backtracks to "yrs". -/
def unitB (t : List Char) : Option (List Char) :=
  match litPref "years".data t with
  | some r => if headOk r then some r else yrsB t
  | none => yrsB t

/-- `\s*(?:years|yrs)\b`. -/
def unitAfter (t : List Char) : Option (List Char) := unitB (dropWs t)

/-- Greedy `(\d{1,2})` followed by the continuation `after`: two digits
are preferred, with backtracking to one digit. -/
def stepNum (after : List Char → Option (List Char)) : List Char → Option (List Char × List Char)
  | [] => none
  | c1 :: rest =>
    if c1.isDigit then
      let one :=
        match after rest with
        | some r => some ([c1], r)
        | none => none
      match rest with
      | c2 :: rest2 =>
        if c2.isDigit then
          match after rest2 with
          | some r => some ([c1, c2], r)
          | none => one
        else one
      | [] => one
    else none

/-- Continuation of pattern 1 after the digits: `\s*\+\s*(?:years|yrs)\b`. -/
def p1After (t : List Char) : Option (List Char) :=
  match dropWs t with
  | '+' :: r2 => unitAfter r2
  | _ => none

/-- Pattern 1: `(\d{1,2})\s*\+\s*(?:years|yrs)\b`. -/
def step1 : List Char → Option (List Char × List Char) := stepNum p1After

/-- Pattern 2: `minimum\s+(\d{1,2})\s*(?:years|yrs)\b`. -/
def step2 (t : List Char) : Option (List Char × List Char) :=
  match litPref "minimum".data t with
  | some r =>
    match r with
    | c :: r' => if isWs c then stepNum unitAfter (dropWs r') else none
    | [] => none
  | none => none

/-- Pattern 3: `at\s+least\s+(\d{1,2})\s*(?:years|yrs)\b`. -/
def step3 (t : List Char) : Option (List Char × List Char) :=
  match litPref "at".data t with
  | some r =>
    match r with
    | c :: r' =>
      if isWs c then
        match litPref "least".data (dropWs r') with
        | some r2 =>
          match r2 with
          | d :: r3 => if isWs d then stepNum unitAfter (dropWs r3) else none
          | [] => none
        | none => none
      else none
    | [] => none
  | none => none

/-- `\s+of\s+experience`. -/
def p4Tail (r : List Char) : Option (List Char) :=
  match r with
  | c :: r' =>
    if isWs c then
      match litPref "of".data (dropWs r') with
      | some r2 =>
        match r2 with
        | d :: r3 => if isWs d then litPref "experience".data (dropWs r3) else none
        | [] => none
      | none => none
    else none
  | [] => none

/-- Continuation of pattern 4: `\s*(?:years|yrs)\s+of\s+experience`,
with backtracking from "years" to "yrs". -/
def p4After (t : List Char) : Option (List Char) :=
  let t1 := dropWs t
  let alt :=
    match litPref "yrs".data t1 with
    | some r => p4Tail r
    | none => none
  match litPref "years".data t1 with
  | some r =>
    match p4Tail r with
    | some r' => some r'
    | none => alt
  | none => alt

/-- Pattern 4: `(\d{1,2})\s*(?:years|yrs)\s+of\s+experience`. -/
def step4 : List Char → Option (List Char × List Char) := stepNum p4After

/-- `re.finditer`: scan left to right, resuming after each match (every
pattern above consumes at least one character); the fuel, the text
length plus one, covers the whole scan. -/
def scanIter (step : List Char → Option (List Char × List Char)) :
    Nat → List Char → List (List Char)
  | 0, _ => []
  | _ + 1, [] =>
    match step [] with
    | some (g, _) => [g]
    | none => []
  | fuel + 1, c :: t =>
    match step (c :: t) with
    | some (g, r) => g :: scanIter step fuel r
    | none => scanIter step fuel t

def findAll (step : List Char → Option (List Char × List Char)) (t : List Char) :
    List (List Char) := scanIter step (t.length + 1) t

/-- `int(m.group(1))` under the `try`/`except`: a failing parse yields
no candidate instead of aborting. -/
def parseGroup (g : List Char) : Option Nat :=
  if g ≠ [] ∧ g.all Char.isDigit then
    some (g.foldl (fun n c => n * 10 + (c.toNat - '0'.toNat)) 0)
  else none

/-- The candidate list `hits` of `extract_years_experience`: all four
patterns' captures in pattern order, parse failures skipped. -/
def yearsHits (text_blob : String) : List Nat :=
  let t := normalizeList text_blob.data
  (findAll step1 t ++ findAll step2 t ++ findAll step3 t ++ findAll step4 t).filterMap
    parseGroup

/-- `extract_years_experience`: `Decimal(min(hits)) if hits else None`.
`Decimal` of a Python int is exact, so the result is modelled as the
integer itself. -/
def extract_years_experience (text_blob : String) : Option Nat :=
  (yearsHits text_blob).min?

/-! ### Claim theorems for the years extractor and the location parser -/

/-- C3: years-of-experience extraction returns the minimum integer among
every candidate matched by any of the four patterns, or null when no
pattern matches; a parse failure of one candidate is skipped and never
aborts the extraction; a text containing both "5+ years" and "at least 3
years" yields 3 (the value being an exact integer). -/
theorem years_experience_minimum :
    (∀ (blob : String) (v : Nat), extract_years_experience blob = some v ↔
      v ∈ yearsHits blob ∧ ∀ h ∈ yearsHits blob, v ≤ h) ∧
    (∀ blob : String, extract_years_experience blob = none ↔ yearsHits blob = []) ∧
    (∀ (pre suf : List (List Char)) (g : List Char), parseGroup g = none →
      (pre ++ g :: suf).filterMap parseGroup = (pre ++ suf).filterMap parseGroup) ∧
    extract_years_experience "5+ years and at least 3 years" = some 3 := by
  refine ⟨?_, ?_, ?_, by decide⟩
  · intro blob v
    rw [extract_years_experience]
    exact List.min?_eq_some_iff Nat.le_refl (fun a b => by omega) (fun a b c => Nat.le_min)
  · intro blob
    rw [extract_years_experience]
    cases h : yearsHits blob <;> simp [List.min?]
  · intro pre suf g hg
    simp [List.filterMap_append, List.filterMap_cons, hg]

/-- Closed instance of the skip clause of `years_experience_minimum`: a
non-numeric candidate contributes nothing. -/
theorem years_experience_minimum_witness :
    (([] : List (List Char)) ++ "xy".data :: []).filterMap parseGroup =
      (([] : List (List Char)) ++ []).filterMap parseGroup :=
  years_experience_minimum.2.2.1 [] [] "xy".data (by decide)

theorem lookup_mem_values {α β : Type} [BEq α] (l : List (α × β)) (k : α) (v : β)
    (h : l.lookup k = some v) : v ∈ l.map Prod.snd := by
  induction l with
  | nil => simp [List.lookup] at h
  | cons e es ih =>
    cases hk : k == e.1 <;> simp only [List.lookup, hk] at h
    · exact List.mem_cons_of_mem _ (ih h)
    · injection h with h2
      subst h2
      exact List.mem_map.2 ⟨e, List.mem_cons_self _ _, rfl⟩

theorem splitWs_nil : splitWs [] = [] := rfl

theorem headD_mem {α : Type} {l : List α} (d : α) (h : l ≠ []) : l.headD d ∈ l := by
  cases l with
  | nil => exact absurd rfl h
  | cons a t => exact List.mem_cons_self _ _

theorem partsOf_ne_nil {s : String} {p : List Char} (hp : p ∈ partsOf s) : p ≠ [] := by
  have := List.of_mem_filter hp
  simpa using this

theorem mk_ne_empty {l : List Char} (h : l ≠ []) : String.mk l ≠ "" :=
  fun hcon => h (congrArg String.data hcon)

theorem resolveSecondPart_state {ms st : String} (h : resolveSecondPart ms = some st) :
    st ∈ STATE_NAMES := by
  unfold resolveSecondPart at h
  by_cases h1 : STATE_ABBRS.contains ms = true
  · rw [if_pos h1] at h
    exact lookup_mem_values _ _ _ h
  · rw [if_neg h1] at h
    by_cases h2 : STATE_NAMES.contains ms = true
    · rw [if_pos h2] at h
      obtain rfl : ms = st := Option.some.inj h
      simpa using h2
    · rw [if_neg h2] at h
      by_cases h3 : STATE_ABBRS.contains (firstTokenStr ms) = true
      · rw [if_pos h3] at h
        exact lookup_mem_values _ _ _ h
      · rw [if_neg h3] at h
        by_cases h4 : STATE_NAMES.contains (firstTokenStr ms) = true
        · rw [if_pos h4] at h
          obtain rfl : firstTokenStr ms = st := Option.some.inj h
          simpa using h4
        · rw [if_neg h4] at h
          simp at h

theorem singlePartResult_abbr {loc lastTok : List Char}
    (hlast : (splitWs loc).getLast? = some lastTok)
    (habbr : STATE_ABBRS.contains (String.mk (stripL lastTok)) = true) :
    singlePartResult loc =
      (if stripL (joinSpace (splitWs loc).dropLast) = [] then none
        else some (String.mk (stripL (joinSpace (splitWs loc).dropLast))),
        US_STATES.lookup (String.mk (stripL lastTok))) := by
  simp only [singlePartResult, hlast]
  rw [if_pos habbr]

theorem singlePartResult_noabbr {loc lastTok : List Char}
    (hlast : (splitWs loc).getLast? = some lastTok)
    (habbr : STATE_ABBRS.contains (String.mk (stripL lastTok)) = false) :
    singlePartResult loc = (some (String.mk loc), none) := by
  simp only [singlePartResult, hlast]
  rw [if_neg fun hcon => Bool.false_ne_true (habbr ▸ hcon)]

theorem singlePartResult_none {loc : List Char}
    (hlast : (splitWs loc).getLast? = none) : singlePartResult loc = (none, none) := by
  simp only [singlePartResult, hlast]

theorem singlePartResult_city (loc : List Char) :
    (singlePartResult loc).1 = none ∨
      ∃ c, (singlePartResult loc).1 = some c ∧ c ≠ "" := by
  cases hlast : (splitWs loc).getLast? with
  | none =>
    rw [singlePartResult_none hlast]
    exact .inl rfl
  | some lastTok =>
    by_cases habbr : STATE_ABBRS.contains (String.mk (stripL lastTok)) = true
    · rw [singlePartResult_abbr hlast habbr]
      by_cases hcity : stripL (joinSpace (splitWs loc).dropLast) = []
      · rw [if_pos hcity]
        exact .inl rfl
      · rw [if_neg hcity]
        exact .inr ⟨_, rfl, mk_ne_empty hcity⟩
    · have hf : STATE_ABBRS.contains (String.mk (stripL lastTok)) = false := by
        simpa using habbr
      rw [singlePartResult_noabbr hlast hf]
      right
      refine ⟨_, rfl, mk_ne_empty fun hcon => ?_⟩
      rw [hcon, splitWs_nil] at hlast
      simp at hlast

theorem singlePartResult_state {loc : List Char} {st : String}
    (h : (singlePartResult loc).2 = some st) : st ∈ STATE_NAMES := by
  cases hlast : (splitWs loc).getLast? with
  | none =>
    rw [singlePartResult_none hlast] at h
    simp at h
  | some lastTok =>
    by_cases habbr : STATE_ABBRS.contains (String.mk (stripL lastTok)) = true
    · rw [singlePartResult_abbr hlast habbr] at h
      exact lookup_mem_values _ _ _ h
    · have hf : STATE_ABBRS.contains (String.mk (stripL lastTok)) = false := by
        simpa using habbr
      rw [singlePartResult_noabbr hlast hf] at h
      simp at h

/-- C2: with two or more comma-separated parts the first part is the
city and the second part (or its first whitespace token) resolves the
state; with one part a trailing recognized abbreviation resolves the
state with the city being everything before it, otherwise the whole
(stripped) string is the city with no state; an undetermined state falls
back to a supplied non-empty query state; concretely, "Dallas, Texas",
"New York, NY", "Austin TX", "Austin" with fallback "Texas", and
"Remote, USA" behave as stated. -/
theorem location_parsing_rules :
    (∀ s : String, s ≠ "" → 2 ≤ (partsOf s).length →
      parse_city_state (some s) =
        (some (String.mk ((partsOf s).headD [])),
          resolveSecondPart (String.mk ((partsOf s).getD 1 [])))) ∧
    (∀ (s : String) (lastTok : List Char), s ≠ "" → (partsOf s).length < 2 →
      (splitWs (stripL s.data)).getLast? = some lastTok →
      (STATE_ABBRS.contains (String.mk (stripL lastTok)) = true →
        parse_city_state (some s) =
          (if stripL (joinSpace (splitWs (stripL s.data)).dropLast) = [] then none
            else some (String.mk (stripL (joinSpace (splitWs (stripL s.data)).dropLast))),
            US_STATES.lookup (String.mk (stripL lastTok)))) ∧
      (STATE_ABBRS.contains (String.mk (stripL lastTok)) = false →
        parse_city_state (some s) = (some (String.mk (stripL s.data)), none))) ∧
    (∀ q : String, q ≠ "" → applyFallback none (some q) = some q) ∧
    parse_city_state (some "Dallas, Texas") = (some "Dallas", some "Texas") ∧
    parse_city_state (some "New York, NY") = (some "New York", some "New York") ∧
    parse_city_state (some "Austin TX") = (some "Austin", some "Texas") ∧
    (parse_city_state (some "Austin") = (some "Austin", none) ∧
      applyFallback (parse_city_state (some "Austin")).2 (some "Texas") = some "Texas") ∧
    parse_city_state (some "Remote, USA") = (some "Remote", none) ∧
    applyFallback (parse_city_state (some "Remote, USA")).2 none = none := by
  refine ⟨?_, ?_, ?_, by decide, by decide, by decide, by decide, by decide, by decide⟩
  · intro s hs hlen
    simp only [parse_city_state, if_neg hs, ge_iff_le, if_pos hlen]
  · intro s lastTok hs hlen hlast
    have hunfold : parse_city_state (some s) = singlePartResult (stripL s.data) := by
      simp only [parse_city_state, if_neg hs, ge_iff_le, if_neg (by omega : ¬2 ≤ (partsOf s).length)]
    exact ⟨fun habbr => by rw [hunfold, singlePartResult_abbr hlast habbr],
      fun habbr => by rw [hunfold, singlePartResult_noabbr hlast habbr]⟩
  · intro q hq
    have hq' : (q != "") = true := by simpa using hq
    simp [applyFallback, hq']

/-- Closed instance of the comma-split clause of
`location_parsing_rules`. -/
theorem location_parsing_rules_witness :
    parse_city_state (some "Dallas, Texas") =
      (some (String.mk ((partsOf "Dallas, Texas").headD [])),
        resolveSecondPart (String.mk ((partsOf "Dallas, Texas").getD 1 []))) :=
  location_parsing_rules.1 "Dallas, Texas" (by decide) (by decide)

/-- C9: invariants of the location parser — each returned component is
null or a non-empty string, null or whitespace-only input yields
(null, null), and any non-null state produced by the parser itself is
one of the fifty full US state names. -/
theorem location_parser_invariants :
    parse_city_state none = (none, none) ∧
    (∀ s : String, (∀ c ∈ s.data, isWs c = true) →
      parse_city_state (some s) = (none, none)) ∧
    (∀ loc : Option String,
      (parse_city_state loc).1 = none ∨
        ∃ c, (parse_city_state loc).1 = some c ∧ c ≠ "") ∧
    (∀ (loc : Option String) (st : String),
      (parse_city_state loc).2 = some st → st ∈ STATE_NAMES ∧ st ≠ "") := by
  have hname : ∀ st : String, st ∈ STATE_NAMES → st ≠ "" := by decide
  refine ⟨rfl, ?_, ?_, ?_⟩
  · intro s hws
    by_cases hs : s = ""
    · subst hs
      rfl
    · have h0 : stripL s.data = [] := by
        rw [stripL, List.dropWhile_eq_nil_iff.2 hws]
        rfl
      have hparts : partsOf s = [] := by
        rw [partsOf, h0]
        rfl
      simp only [parse_city_state, if_neg hs, hparts, ge_iff_le]
      rw [if_neg (by simp), h0]
      rfl
  · intro loc
    match loc with
    | none => exact .inl rfl
    | some s =>
      by_cases hs : s = ""
      · subst hs
        exact .inl rfl
      · by_cases hlen : 2 ≤ (partsOf s).length
        · simp only [parse_city_state, if_neg hs, ge_iff_le, if_pos hlen]
          right
          refine ⟨_, rfl, mk_ne_empty ?_⟩
          exact partsOf_ne_nil (headD_mem [] fun hcon => by simp [hcon] at hlen)
        · simp only [parse_city_state, if_neg hs, ge_iff_le, if_neg hlen]
          exact singlePartResult_city (stripL s.data)
  · intro loc st hst
    have hwrap : st ∈ STATE_NAMES → st ∈ STATE_NAMES ∧ st ≠ "" := fun h => ⟨h, hname st h⟩
    match loc with
    | none => exact absurd hst (by simp [parse_city_state])
    | some s =>
      by_cases hs : s = ""
      · rw [hs] at hst
        exact absurd hst (by simp [parse_city_state])
      · by_cases hlen : 2 ≤ (partsOf s).length
        · simp only [parse_city_state, if_neg hs, ge_iff_le, if_pos hlen] at hst
          exact hwrap (resolveSecondPart_state hst)
        · simp only [parse_city_state, if_neg hs, ge_iff_le, if_neg hlen] at hst
          exact hwrap (singlePartResult_state hst)

/-- Closed instance of the state-name invariant of
`location_parser_invariants`. -/
theorem location_parser_invariants_witness :
    "Texas" ∈ STATE_NAMES ∧ "Texas" ≠ "" :=
  location_parser_invariants.2.2.2 (some "Austin TX") "Texas" (by decide)

/-! ### The description cleaner -/

/-- A text made entirely of angle-bracket markup: a concatenation of
tags, each a `<`, a non-empty `>`-free body, and a `>`. -/
inductive TagsOnly : List Char → Prop where
  | nil : TagsOnly []
  | tag (body rest : List Char) : body ≠ [] → '>' ∉ body →
      TagsOnly rest → TagsOnly ('<' :: body ++ '>' :: rest)

theorem takeWhile_all_append_stop {p : Char → Bool} {l1 l2 : List Char} {y : Char}
    (h1 : ∀ x ∈ l1, p x = true) (h2 : p y = false) :
    (l1 ++ y :: l2).takeWhile p = l1 := by
  induction l1 with
  | nil => simp [List.takeWhile_cons, h2]
  | cons a l ih =>
    rw [List.cons_append, List.takeWhile_cons, if_pos (h1 a (List.mem_cons_self _ _))]
    rw [ih fun x hx => h1 x (List.mem_cons_of_mem a hx)]

theorem stripTags_tag (body rest : List Char) (hb : body ≠ []) (hgt : '>' ∉ body) :
    stripTags ('<' :: body ++ '>' :: rest) = ' ' :: stripTags rest := by
  have hpre : (body ++ '>' :: rest).takeWhile (fun d => d ≠ '>') = body :=
    takeWhile_all_append_stop
      (fun x hx => by
        simp only [ne_eq, decide_eq_true_eq]
        intro hcon
        exact hgt (hcon ▸ hx))
      (by simp)
  conv_lhs => rw [stripTags.eq_def]
  simp only [List.cons_append, hpre]
  rw [if_pos trivial, if_pos ?side]
  case side =>
    refine ⟨?_, hb⟩
    simp only [List.length_append, List.length_cons]
    omega
  congr 1
  have : body ++ '>' :: rest = (body ++ ['>']) ++ rest := by simp
  rw [this]
  have hlen : body.length + 1 = (body ++ ['>']).length := by simp
  rw [hlen, List.drop_left]

theorem stripTags_tagsOnly {l : List Char} (h : TagsOnly l) :
    ∀ c ∈ stripTags l, c = ' ' := by
  induction h with
  | nil => simp [stripTags]
  | tag body rest hb hgt _ ih =>
    rw [stripTags_tag body rest hb hgt]
    intro c hc
    rcases List.mem_cons.1 hc with rfl | hc'
    · rfl
    · exact ih c hc'

/-- C10: the description cleaner collapses empty-string input to the
null result exactly as null input, while a non-empty input consisting
entirely of angle-bracket markup yields the empty string, not null. -/
theorem clean_text_null_vs_empty :
    clean_text none = none ∧ clean_text (some "") = none ∧
    clean_text (some "<p></p>") = some "" ∧
    (∀ s : String, s ≠ "" → TagsOnly s.data → clean_text (some s) = some "") := by
  refine ⟨rfl, rfl, ?_, ?_⟩
  · simp [clean_text, stripTags, collapse, stripL, dropTrail, isWs]
  · intro s hs htags
    have hsp : ∀ c ∈ stripTags s.data, c = ' ' := stripTags_tagsOnly htags
    have hcol : ∀ c ∈ collapse (stripTags s.data), c = ' ' := by
      intro c hc
      rcases mem_collapse hc with ⟨hm, _⟩ | he
      · exact hsp c hm
      · exact he
    have hnil : stripL (collapse (stripTags s.data)) = [] := by
      have h1 : (collapse (stripTags s.data)).dropWhile isWs = [] :=
        List.dropWhile_eq_nil_iff.2 fun x hx => by rw [hcol x hx]; rfl
      rw [stripL, h1]
      rfl
    simp only [clean_text, if_neg hs, hnil]

/-- Closed instance of the markup-only clause of
`clean_text_null_vs_empty`. -/
theorem clean_text_null_vs_empty_witness :
    clean_text (some "<div>") = some "" :=
  clean_text_null_vs_empty.2.2.2 "<div>" (by decide)
    (TagsOnly.tag "div".data [] (by decide) (by decide) TagsOnly.nil)

/-! ### Claims about configuration loading and skill extraction shape -/

/-- The shape demanded by the spec's loading contract: a non-empty
mapping whose values are all lists. -/
def isStrListMap : YVal → Prop
  | .yDict l => l ≠ [] ∧ ∀ e ∈ l, ∃ al, e.2 = YVal.yList al
  | _ => False

/-- C6 counterexample: a non-empty dict whose value is a plain string is
not a mapping of string to list, yet the guard accepts it without
raising. -/
theorem skills_check_counterexample :
    checkSkillsMap (.yDict [("python", .yStr "py")]) = .ok [("python", YVal.yStr "py")] ∧
    ¬ isStrListMap (.yDict [("python", .yStr "py")]) := by
  refine ⟨rfl, ?_⟩
  intro h
  obtain ⟨-, h2⟩ := h
  obtain ⟨al, hal⟩ := h2 ("python", .yStr "py") (List.mem_singleton_self _)
  cases hal

/-- C6 (amended): loading the skill configuration raises exactly when
the skills value is not a dict or is an empty dict — the shape of the
values is not validated, so a dict with non-list values passes the check
— while a canonical skill whose alias list is empty is silently skipped
at compile time rather than being an error. -/
theorem skills_check_amended :
    (∀ m : YVal, (∃ l, checkSkillsMap m = .ok l) ↔ ∃ l, l ≠ [] ∧ m = .yDict l) ∧
    (∀ (d : List (String × YVal)) (n : String),
      compiledOf (d ++ [(n, YVal.yList [])]) = compiledOf d) ∧
    compiledOf [("python", .yList ["python"]), ("ghost", .yList [])] =
      [("python", ["python".data])] := by
  refine ⟨?_, ?_, rfl⟩
  · intro m
    constructor
    · rintro ⟨l, hl⟩
      match m with
      | .yDict l' =>
        by_cases he : l'.isEmpty = true
        · simp only [checkSkillsMap, if_pos he] at hl
          cases hl
        · simp only [checkSkillsMap, if_neg he] at hl
          injection hl with hl'
          exact ⟨l', by simpa using he, rfl⟩
      | .yNull => simp [checkSkillsMap] at hl
      | .yStr s => simp [checkSkillsMap] at hl
      | .yList l2 => simp [checkSkillsMap] at hl
    · rintro ⟨l, hne, rfl⟩
      refine ⟨l, ?_⟩
      simp only [checkSkillsMap]
      rw [if_neg (by simpa using hne)]
  · intro d n
    simp [compiledOf, List.filter_append, truthy]

/-- Closed instance of the guard clause of `skills_check_amended`. -/
theorem skills_check_amended_witness :
    (∃ l, checkSkillsMap (.yDict [("a", YVal.yList ["x"])]) = .ok l) ↔
      ∃ l, l ≠ [] ∧ YVal.yDict [("a", YVal.yList ["x"])] = .yDict l :=
  skills_check_amended.1 (.yDict [("a", YVal.yList ["x"])])

/-- C7 counterexample: a skill whose only alias is whitespace-only is
compiled (its alternation is empty) and is reported by the extractor on
the empty text. -/
theorem whitespace_alias_counterexample :
    compile [("ghost", [" "])] = [("ghost", [])] ∧
    extract_skills (compile [("ghost", [" "])]) "" = (["ghost"], ["ghost"]) := by
  exact ⟨rfl, by decide⟩

/-- C7 (amended): a matcher is built for every canonical skill whose
alias list is non-empty, even when every alias trims to the empty
string; such a skill compiles to an empty alternation, which matches
exactly at a position neither preceded nor followed by a word character
— in particular on the empty text — so the skill can be reported.  A
skill with an empty alias list is never compiled. -/
theorem whitespace_alias_amended :
    (∀ t : List Char, rxSearch [] t = true ↔
      ∃ pre suf, t = pre ++ suf ∧ lastOk pre = true ∧ headOk suf = true) ∧
    (∀ (d : List (String × List String)) (n : String),
      compile (d ++ [(n, [])]) = compile d) ∧
    extract_skills (compile [("ghost", [" "])]) "" = (["ghost"], ["ghost"]) := by
  refine ⟨?_, ?_, by decide⟩
  · intro t
    rw [rxSearch, searchAux_iff]
    constructor
    · rintro ⟨pre, suf, rfl, hp, ha⟩
      exact ⟨pre, suf, rfl, hp, ha⟩
    · rintro ⟨pre, suf, rfl, hp, ha⟩
      exact ⟨pre, suf, rfl, hp, ha⟩
  · intro d n
    simp [compile, compiledOf, List.map_append, List.filter_append, truthy]

/-- Closed instance of the empty-alternation clause of
`whitespace_alias_amended`. -/
theorem whitespace_alias_amended_witness :
    rxSearch [] "+".data = true ↔
      ∃ pre suf, "+".data = pre ++ suf ∧ lastOk pre = true ∧ headOk suf = true :=
  whitespace_alias_amended.1 "+".data

/-- C8 counterexample: the dictionary keys "SQL" and "sql" are distinct,
but both normalize to the canonical name "sql", so the extracted skills
list contains a duplicate. -/
theorem skills_duplicate_counterexample :
    (extract_skills (compile [("SQL", ["sql"]), ("sql", ["sql"])]) "sql").1 =
      ["sql", "sql"] ∧
    ¬ (extract_skills (compile [("SQL", ["sql"]), ("sql", ["sql"])]) "sql").1.Nodup := by
  have h : (extract_skills (compile [("SQL", ["sql"]), ("sql", ["sql"])]) "sql").1 =
      ["sql", "sql"] := by
    simp [extract_skills, compile, compiledOf, patternsOf, yElems, truthy, trimLower,
      stripL, dropTrail, normalizeList, collapse, punct1, keep3, isWs,
      rxSearch, searchAux, altMatch, matchPat, headOk, chEq, isWordChar]
  refine ⟨h, ?_⟩
  rw [h]
  decide

/-- C8 (amended): the extracted skills list is ordered by dictionary
definition order (a sublist of the compiled canonical names, not text
order) and is duplicate-free whenever the normalized canonical names are
pairwise distinct; top_skills is the first ten entries of that list,
skills_count is its length, and has_explicit_skills holds exactly when
skills_count is positive. -/
theorem skills_fields_amended :
    (∀ (compiled : List (String × List (List Char))) (blob : String),
      (compiled.map Prod.fst).Nodup → (extract_skills compiled blob).1.Nodup) ∧
    (∀ (compiled : List (String × List (List Char))) (blob : String),
      (extract_skills compiled blob).1.Sublist (compiled.map Prod.fst)) ∧
    (∀ (compiled : List (String × List (List Char))) (blob : String),
      (extract_skills compiled blob).2 = (extract_skills compiled blob).1.take 10) ∧
    (∀ (compiled : List (String × List (List Char))) (blob : String),
      (skillFieldsOf compiled blob).skills_count =
        (skillFieldsOf compiled blob).skills.length ∧
      ((skillFieldsOf compiled blob).has_explicit_skills = true ↔
        0 < (skillFieldsOf compiled blob).skills_count)) ∧
    (extract_skills (compile [("python", ["python"]), ("sql", ["sql"])])
      "sql and python").1 = ["python", "sql"] := by
  have hsub : ∀ (compiled : List (String × List (List Char))) (blob : String),
      (extract_skills compiled blob).1.Sublist (compiled.map Prod.fst) := by
    intro compiled blob
    exact List.Sublist.map Prod.fst (List.filter_sublist _)
  refine ⟨?_, hsub, fun compiled blob => rfl, ?_, ?_⟩
  · intro compiled blob hnd
    exact List.Nodup.sublist (hsub compiled blob) hnd
  · intro compiled blob
    exact ⟨rfl, by simp [skillFieldsOf]⟩
  · simp [extract_skills, compile, compiledOf, patternsOf, yElems, truthy, trimLower,
      stripL, dropTrail, normalizeList, collapse, punct1, keep3, isWs,
      rxSearch, searchAux, altMatch, matchPat, headOk, chEq, isWordChar]

/-- Closed instance of the duplicate-freedom clause of
`skills_fields_amended`. -/
theorem skills_fields_amended_witness :
    (extract_skills (compile [("sql", ["sql"])]) "uses sql").1.Nodup :=
  skills_fields_amended.1 (compile [("sql", ["sql"])]) "uses sql" (by decide)

end JobMarket
